import Mathlib

/-!
Verification of the motion-segment synthesis core of BeagleG
(src/motor-operations.c) against its natural-language specification.

The C file is shallowly embedded below.  Conventions of the embedding:

* Machine integers become `Int`/`Nat`.  `steps` entries are `int` (32 bit)
  in the source; theorems that need the range carry the hypothesis
  `(steps i).natAbs ≤ 2 ^ 31`.  C integer division on `int64_t` truncates
  toward zero and is embedded as `Int.tdiv`; the arithmetic right shift
  `>> 32` of an `int64_t` rounds toward negative infinity and is embedded
  as `Int.fdiv · (2 ^ 32)`.  The `uint64 → uint32` store of a fraction is
  embedded with an explicit `% 2 ^ 32`.
* `float`/`double` values become a linearly ordered field `K`
  (instantiated with `ℝ` in the theorems that need `Real.sqrt`); the
  `sqrt`/`sqrtf` library routines are passed in as a function argument
  `sqrtK`, and `roundf` is embedded as Mathlib's `round`.
* `TIMER_FREQUENCY` and `DELAY_CYCLE_SHIFT` live in the header
  motor-interface-constants.h, which is not part of the sources; they are
  kept as parameters `tf` and `dcs`.  The axis counts `MOTION_MOTOR_COUNT`
  and `BEAGLEG_NUM_MOTORS` also come from missing headers; both are
  modelled from the spec (a fixed, small axis count N) as one parameter
  `n`, with step vectors `Fin n → Int`.
* Stack variables the C code reads without initializing (the
  `accel_series_index` and `hires_accel_cycles` fields in the travel
  branch, and `output.aux_bits` in the splitting loop) are modelled as
  explicit junk parameters `uninit_series`, `uninit_hires`, `aux_junk`.
-/

namespace BeagleG

/-- Models `LOOPS_PER_STEP` from line 38: two loops per motor step. -/
def LOOPS_PER_STEP : Nat := 1 <<< 1

/-- Models `MAX_STEPS_PER_SEGMENT` from line 42. -/
def MAX_STEPS_PER_SEGMENT : Nat := 65535 / LOOPS_PER_STEP

/-- Models the `struct MotorMovement` input (fields used by this file):
per-axis signed step counts, start/end speed, auxiliary bits.
Fields in order: `steps`, `v0`, `v1`, `aux_bits`. -/
structure MotorMovement (n : Nat) (K : Type) where
  steps : Fin n → Int
  v0 : K
  v1 : K
  aux_bits : Nat

/-- Models the segment state tag of motion-queue.h (missing header).
Modelled from the spec: a tag marking the segment as filled/ready versus
the empty/sentinel state used by the queue ring buffer. -/
inductive SegmentState where
  | EMPTY : SegmentState
  | FILLED : SegmentState
deriving DecidableEq

/-- Models the `struct MotionSegment` output.  The C bit set
`direction_bits` is embedded as its indicator function.
Fields in order: `direction_bits`, `fractions`, `loops_accel`,
`loops_travel`, `loops_decel`, `travel_delay_cycles`,
`accel_series_index`, `hires_accel_cycles`, `aux`, `state`. -/
structure MotionSegment (n : Nat) where
  direction_bits : Fin n → Bool
  fractions : Fin n → Nat
  loops_accel : Nat
  loops_travel : Nat
  loops_decel : Nat
  travel_delay_cycles : Int
  accel_series_index : Int
  hires_accel_cycles : Int
  aux : Nat
  state : SegmentState

variable {K : Type} [LinearOrderedField K] [FloorRing K]

/-- Models `hardware_frequency_limit_` after `beagleg_init_motor_ops`
set it to `1e6` (line 230); it is never mutated afterwards. -/
def hardware_frequency_limit (K : Type) [LinearOrderedField K] : K := 1000000

/-- Models `sq` (line 47): square a number. -/
def sq (x : K) : K := x * x

/-- Models `sqd` (line 48): square a number, in double. -/
def sqd (x : K) : K := x * x

/-- Models `clip_hardware_frequency_limit` (lines 52-54). -/
def clip_hardware_frequency_limit (v : K) : K :=
  if v < hardware_frequency_limit K then v else hardware_frequency_limit K

/-- Models `calcAccelerationCurveValueAt` (lines 56-63); `sqrtK` stands
for `sqrtf` and `tf` for `TIMER_FREQUENCY`. -/
def calcAccelerationCurveValueAt (sqrtK : K → K) (tf : K) (index : Int)
    (acceleration : K) : K :=
  let accel_factor : K :=
    tf * sqrtK ((LOOPS_PER_STEP : K) * 2 / acceleration) / (LOOPS_PER_STEP : K)
  let c0 : K := if index = 0 then accel_factor * (67605 / 100000) else accel_factor
  c0 * (sqrtK ((index : K) + 1) - sqrtK (index : K))

/-- Models `beagleg_enqueue_internal` (lines 86-153): synthesize one
motion segment.  `dcs` stands for `DELAY_CYCLE_SHIFT`; `uninit_series`
and `uninit_hires` stand for the stack garbage left in
`accel_series_index` and `hires_accel_cycles` by the travel branch,
which assigns neither field.  The uint64 product
`delta * max_fraction` cannot wrap for 32-bit step counts
(|steps| * max_fraction < 2^63), so no `% 2^64` is inserted; the store
into the `uint32` field `fractions[i]` is the final `% 2^32`. -/
def beagleg_enqueue_internal {n : Nat} (sqrtK : K → K) (tf : K) (dcs : Nat)
    (uninit_series uninit_hires : Int)
    (param : MotorMovement n K) (defining_axis_steps : Nat) : MotionSegment n :=
  let direction_bits : Fin n → Bool := fun i => decide (param.steps i < 0)
  let max_fraction : Nat := 0xFFFFFFFF / LOOPS_PER_STEP
  let fractions : Fin n → Nat := fun i =>
    (param.steps i).natAbs * max_fraction / defining_axis_steps % 2 ^ 32
  let total_loops : Nat := LOOPS_PER_STEP * defining_axis_steps
  if param.v0 = param.v1 then
    -- Travel (lines 110-115)
    let travel_speed : K := clip_hardware_frequency_limit param.v0
    ⟨direction_bits, fractions, 0, total_loops, 0,
      round (tf / ((LOOPS_PER_STEP : K) * travel_speed)),
      uninit_series, uninit_hires, param.aux_bits, SegmentState.FILLED⟩
  else if param.v0 < param.v1 then
    -- Accelerate (lines 116-133)
    let acceleration : K :=
      (sq param.v1 - sq param.v0) / (2 * (defining_axis_steps : K))
    let accel_loops_from_zero : Int :=
      round ((LOOPS_PER_STEP : K) * (sq (param.v0 - 0) / (2 * acceleration)))
    ⟨direction_bits, fractions, total_loops, 0, 0, 0,
      accel_loops_from_zero,
      round ((2 ^ dcs : K) *
        calcAccelerationCurveValueAt sqrtK tf accel_loops_from_zero acceleration),
      param.aux_bits, SegmentState.FILLED⟩
  else
    -- Decelerate (lines 134-148)
    let acceleration : K :=
      (sq param.v0 - sq param.v1) / (2 * (defining_axis_steps : K))
    let accel_loops_from_zero : Int :=
      round ((LOOPS_PER_STEP : K) * (sq (param.v0 - 0) / (2 * acceleration)))
    ⟨direction_bits, fractions, 0, 0, total_loops, 0,
      accel_loops_from_zero,
      round ((2 ^ dcs : K) *
        calcAccelerationCurveValueAt sqrtK tf accel_loops_from_zero acceleration),
      param.aux_bits, SegmentState.FILLED⟩

/-- Models `get_defining_axis_steps` (lines 155-163): the maximum of the
absolute per-axis step counts. -/
def get_defining_axis_steps {n : Nat} (steps : Fin n → Int) : Nat :=
  Finset.univ.sup fun i => (steps i).natAbs

/-- Models `divisions` (line 178): how many sub-movements the splitting
path produces. -/
def divisions_of (defining_axis_steps : Nat) : Nat :=
  defining_axis_steps / MAX_STEPS_PER_SEGMENT + 1

/-- Models `hires_steps_per_div[i]` (line 182): fixed-point per-division
step increment, with the `+1` truncation compensation.  The C shift
`(int64_t)steps[i] << 32` is multiplication by `2^32`; the division of
the `int64_t` truncates toward zero (`Int.tdiv`). -/
def hires_steps_per_div {n : Nat} (steps : Fin n → Int) (divisions : Nat)
    (i : Fin n) : Int :=
  Int.tdiv (steps i * 2 ^ 32) (divisions : Int) + 1

/-- Models `hires_step_accumulator[i]` (lines 186, 191): its value after
`d` iterations of the division loop, each adding `hires_steps_per_div[i]`. -/
def hires_step_accumulator {n : Nat} (steps : Fin n → Int) (divisions : Nat)
    (i : Fin n) : Nat → Int
  | 0 => 0
  | d + 1 => hires_step_accumulator steps divisions i d
      + hires_steps_per_div steps divisions i

/-- Models `accumulator.steps[i]` (line 192) after `d` loop iterations:
the arithmetic shift `>> 32` rounds toward negative infinity. -/
def accumulator_steps {n : Nat} (steps : Fin n → Int) (divisions : Nat)
    (d : Nat) (i : Fin n) : Int :=
  Int.fdiv (hires_step_accumulator steps divisions i d) (2 ^ 32)

/-- Models `output.steps[i]` (line 193) at division `d` (0-based):
the accumulator's integer part minus the previous division's. -/
def division_delta {n : Nat} (steps : Fin n → Int) (divisions : Nat)
    (d : Nat) (i : Fin n) : Int :=
  accumulator_steps steps divisions (d + 1) i - accumulator_steps steps divisions d i

/-- Models `division_steps` (line 195): the defining-axis step count of
division `d`, computed from the division's own delta vector. -/
def division_steps {n : Nat} (steps : Fin n → Int) (divisions : Nat)
    (d : Nat) : Nat :=
  get_defining_axis_steps fun i => division_delta steps divisions d i

/-- Models the constant acceleration `a` of the whole movement
(line 177), computed in double precision. -/
def split_acceleration {n : Nat} (param : MotorMovement n K) : K :=
  (sqd param.v1 - sqd param.v0) /
    (2 * (get_defining_axis_steps param.steps : K))

/-- Models lines 199-204: from the previous division's exit speed
`prev` compute the next exit speed as `sqrt(prev^2 + 2 a steps)`, with a
non-positive radicand clamped to `0` before the square root. -/
def next_division_speed (sqrtK : K → K) (a prev : K) (dsteps : Nat) : K :=
  let v0squared : K := sqd prev
  let v1squared : K := v0squared + 2 * a * (dsteps : K)
  if 0 < v1squared then sqrtK v1squared else 0

/-- Models `previous_speed` (lines 187, 209) at the top of loop
iteration `d`: the entry speed of division `d`.  It starts at the
requested `v0` and each iteration carries the computed exit speed
forward. -/
def division_entry_speed (sqrtK : K → K) (a : K) (ds : Nat → Nat) (v0 : K) :
    Nat → K
  | 0 => v0
  | d + 1 => next_division_speed sqrtK a
      (division_entry_speed sqrtK a ds v0 d) (ds d)

/-- Models `v1` = `output.v1` (lines 204, 206): the exit speed of
division `d`. -/
def division_exit_speed (sqrtK : K → K) (a : K) (ds : Nat → Nat) (v0 : K)
    (d : Nat) : K :=
  next_division_speed sqrtK a (division_entry_speed sqrtK a ds v0 d) (ds d)

/-- Models the `output` movement handed to `beagleg_enqueue_internal`
at division `d` of the splitting path (lines 189-207).  The C code never
assigns `output.aux_bits`; `aux_junk` stands for that indeterminate
stack value. -/
def division_output {n : Nat} (sqrtK : K → K) (aux_junk : Nat)
    (param : MotorMovement n K) (d : Nat) : MotorMovement n K :=
  let defining := get_defining_axis_steps param.steps
  let divisions := divisions_of defining
  let a := split_acceleration param
  ⟨fun i => division_delta param.steps divisions d i,
    division_entry_speed sqrtK a (fun k => division_steps param.steps divisions k)
      param.v0 d,
    division_exit_speed sqrtK a (fun k => division_steps param.steps divisions k)
      param.v0 d,
    aux_junk⟩

/-- Result of `beagleg_enqueue`: the C return value, the segments handed
to `backend->enqueue` in order, and the lines printed to the error
stream.  Fields in order: `ret`, `segments`, `err_output`. -/
structure EnqueueResult (n : Nat) where
  ret : Int
  segments : List (MotionSegment n)
  err_output : List String

/-- Models `beagleg_enqueue` (lines 165-215), the entry point: reject
zero-length movements, split movements whose defining axis exceeds
`MAX_STEPS_PER_SEGMENT` into divisions, otherwise synthesize a single
segment. -/
def beagleg_enqueue {n : Nat} (sqrtK : K → K) (tf : K) (dcs : Nat)
    (uninit_series uninit_hires : Int) (aux_junk : Nat)
    (param : MotorMovement n K) : EnqueueResult n :=
  let defining_axis_steps := get_defining_axis_steps param.steps
  if defining_axis_steps = 0 then
    ⟨1, [], ["zero steps. Ignoring command.\n"]⟩
  else if MAX_STEPS_PER_SEGMENT < defining_axis_steps then
    let divisions := divisions_of defining_axis_steps
    ⟨0,
      (List.range divisions).map fun d =>
        beagleg_enqueue_internal sqrtK tf dcs uninit_series uninit_hires
          (division_output sqrtK aux_junk param d)
          (division_steps param.steps divisions d),
      []⟩
  else
    ⟨0,
      [beagleg_enqueue_internal sqrtK tf dcs uninit_series uninit_hires
        param defining_axis_steps],
      []⟩

/-! Basic facts about the constants and the accumulator. -/

lemma LOOPS_PER_STEP_eq : LOOPS_PER_STEP = 2 := rfl

lemma MAX_STEPS_PER_SEGMENT_eq : MAX_STEPS_PER_SEGMENT = 32767 := rfl

lemma hires_step_accumulator_eq {n : Nat} (steps : Fin n → Int) (divisions : Nat)
    (i : Fin n) (d : Nat) :
    hires_step_accumulator steps divisions i d
      = d * hires_steps_per_div steps divisions i := by
  induction d with
  | zero => simp [hires_step_accumulator]
  | succ d ih =>
      rw [hires_step_accumulator, ih]
      push_cast
      ring

/-! Integer-division helper lemmas for the fixed-point splitting
arithmetic.  Throughout, `q = 2 ^ 32` is the fixed-point scale and `D`
the number of divisions. -/

lemma ediv_of_mul_add (x r : Int) {q : Int} (hq : 0 < q) (hr0 : 0 ≤ r)
    (hrq : r < q) : (x * q + r) / q = x := by
  rw [add_comm, Int.add_mul_ediv_right r x hq.ne', Int.ediv_eq_zero_of_lt hr0 hrq,
    zero_add]

/-- Core of step conservation: feeding the truncated-then-incremented
per-division increment through all `D` divisions lands exactly on `s`. -/
lemma fdiv_total_hires (s D : Int) (hD : 0 < D) (h2D : 2 * D ≤ 2 ^ 32) :
    Int.fdiv (D * (Int.tdiv (s * 2 ^ 32) D + 1)) (2 ^ 32) = s := by
  have hq : (0 : Int) < 2 ^ 32 := by norm_num
  rw [Int.fdiv_eq_ediv _ (by norm_num : (0:Int) ≤ 2 ^ 32)]
  rcases le_or_lt 0 s with hs | hs
  · have ht : Int.tdiv (s * 2 ^ 32) D = s * 2 ^ 32 / D :=
      Int.tdiv_eq_ediv (by positivity) hD.le
    have h1 : D * (s * 2 ^ 32 / D) + s * 2 ^ 32 % D = s * 2 ^ 32 :=
      Int.ediv_add_emod _ _
    have h2 : D * (Int.tdiv (s * 2 ^ 32) D + 1)
        = s * 2 ^ 32 + (D - s * 2 ^ 32 % D) := by
      rw [ht]; linear_combination h1
    rw [h2]
    exact ediv_of_mul_add s _ hq
      (by have := Int.emod_lt_of_pos (s * 2 ^ 32) hD; linarith)
      (by have := Int.emod_nonneg (s * 2 ^ 32) hD.ne'; linarith)
  · have hu : (0 : Int) ≤ -s := by linarith
    have ht : Int.tdiv (s * 2 ^ 32) D = -(-s * 2 ^ 32 / D) := by
      have : s * 2 ^ 32 = -(-s * 2 ^ 32) := by ring
      rw [this, Int.neg_tdiv, Int.tdiv_eq_ediv (by positivity) hD.le]
    have h1 : D * (-s * 2 ^ 32 / D) + -s * 2 ^ 32 % D = -s * 2 ^ 32 :=
      Int.ediv_add_emod _ _
    have h2 : D * (Int.tdiv (s * 2 ^ 32) D + 1)
        = s * 2 ^ 32 + (-s * 2 ^ 32 % D + D) := by
      rw [ht]; linear_combination -h1
    rw [h2]
    exact ediv_of_mul_add s _ hq
      (by have := Int.emod_nonneg (-s * 2 ^ 32) hD.ne'; linarith)
      (by have := Int.emod_lt_of_pos (-s * 2 ^ 32) hD; linarith)

/-- The per-axis division deltas of the splitting path sum exactly to the
requested step count. -/
lemma sum_division_delta {n : Nat} (steps : Fin n → Int) (divisions : Nat)
    (hD : 0 < divisions) (h2D : 2 * (divisions : Int) ≤ 2 ^ 32) (i : Fin n) :
    ∑ d ∈ Finset.range divisions, division_delta steps divisions d i = steps i := by
  have htel := Finset.sum_range_sub
    (fun d => accumulator_steps steps divisions d i) divisions
  have hsum : ∑ d ∈ Finset.range divisions, division_delta steps divisions d i
      = accumulator_steps steps divisions divisions i
        - accumulator_steps steps divisions 0 i := htel
  rw [hsum]
  have h0 : accumulator_steps steps divisions 0 i = 0 := by
    simp [accumulator_steps, hires_step_accumulator, Int.fdiv]
  rw [h0, sub_zero, accumulator_steps, hires_step_accumulator_eq]
  exact fdiv_total_hires (steps i) (divisions : Int)
    (by exact_mod_cast hD) h2D

/-- Arithmetic facts about `divisions_of` used by several claims. -/
lemma divisions_of_pos (S : Nat) : 0 < divisions_of S := Nat.succ_pos _

lemma divisions_of_le (S : Nat) (hS : S ≤ 2 ^ 31) :
    2 * ((divisions_of S : Int)) ≤ 2 ^ 32 := by
  have : divisions_of S ≤ 65539 := by
    unfold divisions_of
    rw [MAX_STEPS_PER_SEGMENT_eq]
    omega
  have h2 : (divisions_of S : Int) ≤ 65539 := by exact_mod_cast this
  linarith

lemma defining_le {n : Nat} (steps : Fin n → Int)
    (hrange : ∀ i, (steps i).natAbs ≤ 2 ^ 31) :
    get_defining_axis_steps steps ≤ 2 ^ 31 :=
  Finset.sup_le fun i _ => hrange i

/-! Per-division delta bounds.  Write `h` for the per-division hires
increment and `q = 2 ^ 32`; a division's delta is a difference of
consecutive floors of `d * h / q`, hence lies in `[h/q, h/q + 1]`. -/

lemma ediv_add_sub_ediv (x h q : Int) (hq : 0 < q) :
    (x + h) / q - x / q = (x % q + h) / q := by
  have h1 : x + h = x % q + h + x / q * q := by
    linear_combination (-1 : Int) * Int.ediv_add_emod x q
  rw [h1, Int.add_mul_ediv_right _ _ hq.ne']
  ring

lemma division_delta_eq {n : Nat} (steps : Fin n → Int) (divisions : Nat)
    (d : Nat) (i : Fin n) :
    division_delta steps divisions d i
      = ((d * hires_steps_per_div steps divisions i) % 2 ^ 32
          + hires_steps_per_div steps divisions i) / 2 ^ 32 := by
  unfold division_delta accumulator_steps
  rw [hires_step_accumulator_eq, hires_step_accumulator_eq,
    Int.fdiv_eq_ediv _ (by norm_num), Int.fdiv_eq_ediv _ (by norm_num)]
  have : ((d : Int) + 1) * hires_steps_per_div steps divisions i
      = d * hires_steps_per_div steps divisions i
        + hires_steps_per_div steps divisions i := by push_cast; ring
  rw [show (((d + 1 : Nat) : Int)) = (d : Int) + 1 by omega, this,
    ediv_add_sub_ediv _ _ _ (by norm_num)]

lemma division_delta_lb {n : Nat} (steps : Fin n → Int) (divisions : Nat)
    (d : Nat) (i : Fin n) :
    hires_steps_per_div steps divisions i / 2 ^ 32
      ≤ division_delta steps divisions d i := by
  rw [division_delta_eq]
  refine Int.ediv_le_ediv (by norm_num) ?_
  have := Int.emod_nonneg ((d : Int) * hires_steps_per_div steps divisions i)
    (show (2:Int) ^ 32 ≠ 0 by norm_num)
  linarith

lemma division_delta_ub {n : Nat} (steps : Fin n → Int) (divisions : Nat)
    (d : Nat) (i : Fin n) :
    division_delta steps divisions d i
      ≤ hires_steps_per_div steps divisions i / 2 ^ 32 + 1 := by
  rw [division_delta_eq]
  have hm := Int.emod_lt_of_pos ((d : Int) * hires_steps_per_div steps divisions i)
    (show (0:Int) < 2 ^ 32 by norm_num)
  calc ((d : Int) * hires_steps_per_div steps divisions i % 2 ^ 32
          + hires_steps_per_div steps divisions i) / 2 ^ 32
      ≤ (hires_steps_per_div steps divisions i + 1 * 2 ^ 32) / 2 ^ 32 :=
        Int.ediv_le_ediv (by norm_num) (by linarith)
    _ = hires_steps_per_div steps divisions i / 2 ^ 32 + 1 :=
        Int.add_mul_ediv_right _ _ (by norm_num)

/-- Value of `h/q` for a non-negative step count: exactly `s / D`. -/
lemma hires_ediv_nonneg (s D : Int) (hs : 0 ≤ s) (hD : 0 < D)
    (h2D : 2 * D ≤ 2 ^ 32) :
    (Int.tdiv (s * 2 ^ 32) D + 1) / 2 ^ 32 = s / D := by
  have hq : (0 : Int) < 2 ^ 32 := by norm_num
  rw [Int.tdiv_eq_ediv (by positivity) hD.le]
  have hsd := Int.ediv_add_emod s D
  have hdecomp : s * 2 ^ 32 = s % D * 2 ^ 32 + s / D * 2 ^ 32 * D := by
    linear_combination (-(2:Int) ^ 32) * hsd
  have h1 : s * 2 ^ 32 / D = s % D * 2 ^ 32 / D + s / D * 2 ^ 32 := by
    rw [hdecomp, Int.add_mul_ediv_right _ _ hD.ne']
  have ht0 : 0 ≤ s % D * 2 ^ 32 / D :=
    Int.ediv_nonneg (mul_nonneg (Int.emod_nonneg s hD.ne') hq.le) hD.le
  have htub : s % D * 2 ^ 32 / D < 2 ^ 32 - 1 := by
    rw [Int.ediv_lt_iff_lt_mul hD]
    have hm : s % D ≤ D - 1 := by have := Int.emod_lt_of_pos s hD; linarith
    have h3 : s % D * 2 ^ 32 ≤ (D - 1) * 2 ^ 32 :=
      mul_le_mul_of_nonneg_right hm hq.le
    nlinarith
  have h2 : s * 2 ^ 32 / D + 1 = (s % D * 2 ^ 32 / D + 1) + s / D * 2 ^ 32 := by
    rw [h1]; ring
  rw [h2, Int.add_mul_ediv_right _ _ hq.ne',
    Int.ediv_eq_zero_of_lt (by linarith) (by linarith), zero_add]

/-- Bounds on `h/q` for a negative step count: within one of `-((-s)/D)`. -/
lemma hires_ediv_neg (s D : Int) (hs : s < 0) (hD : 0 < D)
    (h2D : 2 * D ≤ 2 ^ 32) :
    -(-s / D) - 1 ≤ (Int.tdiv (s * 2 ^ 32) D + 1) / 2 ^ 32
      ∧ (Int.tdiv (s * 2 ^ 32) D + 1) / 2 ^ 32 ≤ -(-s / D) := by
  have hq : (0 : Int) < 2 ^ 32 := by norm_num
  have hu : (0 : Int) ≤ -s := by linarith
  have ht : Int.tdiv (s * 2 ^ 32) D = -(-s * 2 ^ 32 / D) := by
    have hrw : s * 2 ^ 32 = -(-s * 2 ^ 32) := by ring
    rw [hrw, Int.neg_tdiv,
      Int.tdiv_eq_ediv (mul_nonneg hu (by norm_num)) hD.le]
  have hsd := Int.ediv_add_emod (-s) D
  have hdecomp : -s * 2 ^ 32 = -s % D * 2 ^ 32 + -s / D * 2 ^ 32 * D := by
    linear_combination (-(2:Int) ^ 32) * hsd
  have h1 : -s * 2 ^ 32 / D = -s % D * 2 ^ 32 / D + -s / D * 2 ^ 32 := by
    rw [hdecomp, Int.add_mul_ediv_right _ _ hD.ne']
  set t := -s % D * 2 ^ 32 / D with htdef
  have ht0 : 0 ≤ t :=
    Int.ediv_nonneg (mul_nonneg (Int.emod_nonneg (-s) hD.ne') hq.le) hD.le
  have htub : t < 2 ^ 32 - 1 := by
    rw [htdef, Int.ediv_lt_iff_lt_mul hD]
    have hm : -s % D ≤ D - 1 := by have := Int.emod_lt_of_pos (-s) hD; linarith
    have h3 : -s % D * 2 ^ 32 ≤ (D - 1) * 2 ^ 32 :=
      mul_le_mul_of_nonneg_right hm hq.le
    nlinarith
  have h2 : Int.tdiv (s * 2 ^ 32) D + 1 = (1 - t) + -(-s / D) * 2 ^ 32 := by
    rw [ht, h1]; ring
  rw [h2, Int.add_mul_ediv_right _ _ hq.ne']
  constructor
  · have hlow : -(2 ^ 32 : Int) ≤ 1 - t := by linarith
    have : (-(2 ^ 32) : Int) / 2 ^ 32 ≤ (1 - t) / 2 ^ 32 :=
      Int.ediv_le_ediv hq hlow
    have hneg : (-(2 ^ 32) : Int) / 2 ^ 32 = -1 := by
      rw [show (-(2 ^ 32) : Int) = -1 * 2 ^ 32 by ring,
        Int.mul_ediv_cancel _ (show (2:Int) ^ 32 ≠ 0 by norm_num)]
    linarith
  · have hup : (1 - t : Int) ≤ 1 := by linarith
    have : (1 - t) / 2 ^ 32 ≤ (1 : Int) / 2 ^ 32 := Int.ediv_le_ediv hq hup
    have hone : ((1 : Int)) / 2 ^ 32 = 0 :=
      Int.ediv_eq_zero_of_lt (by norm_num) (by norm_num)
    linarith

/-- Deltas of a non-negative axis are non-negative (sign compatibility). -/
lemma division_delta_nonneg {n : Nat} (steps : Fin n → Int) (divisions : Nat)
    (d : Nat) (i : Fin n) (hD : 0 < divisions) (hs : 0 ≤ steps i) :
    0 ≤ division_delta steps divisions d i := by
  rw [division_delta_eq]
  refine Int.ediv_nonneg ?_ (by norm_num)
  have hm := Int.emod_nonneg ((d : Int) * hires_steps_per_div steps divisions i)
    (show (2:Int) ^ 32 ≠ 0 by norm_num)
  have hh : 0 ≤ hires_steps_per_div steps divisions i := by
    unfold hires_steps_per_div
    have : 0 ≤ Int.tdiv (steps i * 2 ^ 32) (divisions : Int) :=
      Int.tdiv_nonneg (by positivity) (by exact_mod_cast hD.le)
    linarith
  linarith

/-- Deltas of a negative axis are non-positive (sign compatibility). -/
lemma division_delta_nonpos {n : Nat} (steps : Fin n → Int) (divisions : Nat)
    (d : Nat) (i : Fin n) (hD : 0 < divisions)
    (hDq : (divisions : Int) ≤ 2 ^ 32) (hs : steps i < 0) :
    division_delta steps divisions d i ≤ 0 := by
  have hq : (0 : Int) < 2 ^ 32 := by norm_num
  have hh : hires_steps_per_div steps divisions i ≤ 0 := by
    unfold hires_steps_per_div
    have ht : Int.tdiv (steps i * 2 ^ 32) (divisions : Int)
        = -(-steps i * 2 ^ 32 / (divisions : Int)) := by
      have hrw : steps i * 2 ^ 32 = -(-steps i * 2 ^ 32) := by ring
      rw [hrw, Int.neg_tdiv,
        Int.tdiv_eq_ediv (by nlinarith) (by exact_mod_cast hD.le)]
    have hone : 1 ≤ -steps i * 2 ^ 32 / (divisions : Int) := by
      rw [Int.le_ediv_iff_mul_le (by exact_mod_cast hD)]
      have h1 : (1 : Int) ≤ -steps i := by linarith
      nlinarith
    rw [ht]; linarith
  rw [division_delta_eq]
  have hm := Int.emod_lt_of_pos ((d : Int) * hires_steps_per_div steps divisions i)
    hq
  calc ((d : Int) * hires_steps_per_div steps divisions i % 2 ^ 32
        + hires_steps_per_div steps divisions i) / 2 ^ 32
      ≤ (2 ^ 32 - 1) / 2 ^ 32 := Int.ediv_le_ediv hq (by linarith)
    _ = 0 := Int.ediv_eq_zero_of_lt (by norm_num) (by norm_num)

/-- Magnitude bound: every axis's delta is at most `|s|/D + 1`. -/
lemma division_delta_natAbs_le {n : Nat} (steps : Fin n → Int) (divisions : Nat)
    (d : Nat) (i : Fin n) (hD : 0 < divisions)
    (h2D : 2 * (divisions : Int) ≤ 2 ^ 32) :
    (division_delta steps divisions d i).natAbs
      ≤ (steps i).natAbs / divisions + 1 := by
  have hDi : (0 : Int) < (divisions : Int) := by exact_mod_cast hD
  rcases le_or_lt 0 (steps i) with hs | hs
  · have h0 := division_delta_nonneg steps divisions d i hD hs
    have hub := division_delta_ub steps divisions d i
    have hval : hires_steps_per_div steps divisions i / 2 ^ 32
        = steps i / (divisions : Int) := by
      unfold hires_steps_per_div
      exact hires_ediv_nonneg (steps i) (divisions : Int) hs hDi h2D
    have hcast : (steps i) / (divisions : Int)
        = (((steps i).natAbs / divisions : Nat) : Int) := by
      rw [Int.ofNat_ediv]
      congr 1
      omega
    have : division_delta steps divisions d i
        ≤ (((steps i).natAbs / divisions : Nat) : Int) + 1 := by
      rw [← hcast, ← hval]; exact hub
    omega
  · have h0 := division_delta_nonpos steps divisions d i hD (by linarith) hs
    have hlb := division_delta_lb steps divisions d i
    have hval := hires_ediv_neg (steps i) (divisions : Int) hs hDi h2D
    have hcast : -(steps i) / (divisions : Int)
        = (((steps i).natAbs / divisions : Nat) : Int) := by
      rw [Int.ofNat_ediv]
      congr 1
      omega
    have : -((((steps i).natAbs / divisions : Nat) : Int)) - 1
        ≤ division_delta steps divisions d i := by
      rw [← hcast]
      calc -(-steps i / (divisions : Int)) - 1
          ≤ hires_steps_per_div steps divisions i / 2 ^ 32 := hval.1
        _ ≤ division_delta steps divisions d i := hlb
    omega

/-- Magnitude lower bound for an axis whose step count is at least `2 D`
in magnitude (in particular the defining axis): its delta is non-zero in
every division. -/
lemma division_delta_one_le {n : Nat} (steps : Fin n → Int) (divisions : Nat)
    (d : Nat) (i : Fin n) (hD : 0 < divisions)
    (h2D : 2 * (divisions : Int) ≤ 2 ^ 32)
    (hbig : 2 * divisions ≤ (steps i).natAbs) :
    1 ≤ (division_delta steps divisions d i).natAbs := by
  have hDi : (0 : Int) < (divisions : Int) := by exact_mod_cast hD
  rcases le_or_lt 0 (steps i) with hs | hs
  · have hlb := division_delta_lb steps divisions d i
    have hval : hires_steps_per_div steps divisions i / 2 ^ 32
        = steps i / (divisions : Int) := by
      unfold hires_steps_per_div
      exact hires_ediv_nonneg (steps i) (divisions : Int) hs hDi h2D
    have h2 : (2 : Int) ≤ steps i / (divisions : Int) := by
      rw [Int.le_ediv_iff_mul_le hDi]
      have : (2 * divisions : Int) ≤ steps i := by
        have habs : ((steps i).natAbs : Int) = steps i := by omega
        have := hbig
        omega
      linarith
    have : (2 : Int) ≤ division_delta steps divisions d i := by
      rw [← hval] at h2; linarith
    omega
  · have hub := division_delta_ub steps divisions d i
    have hval := hires_ediv_neg (steps i) (divisions : Int) hs hDi h2D
    have h2 : (2 : Int) ≤ -steps i / (divisions : Int) := by
      rw [Int.le_ediv_iff_mul_le hDi]
      have : (2 * divisions : Int) ≤ -steps i := by omega
      linarith
    have hval2 : hires_steps_per_div steps divisions i / 2 ^ 32
        ≤ -(-steps i / (divisions : Int)) := hval.2
    have : division_delta steps divisions d i ≤ -1 := by linarith
    omega

/-- Claim C1 theorem. -/
theorem step_conservation {n : Nat} (steps : Fin n → Int)
    (hrange : ∀ i, (steps i).natAbs ≤ 2 ^ 31)
    (hbig : MAX_STEPS_PER_SEGMENT < get_defining_axis_steps steps) (i : Fin n) :
    ∑ d ∈ Finset.range (divisions_of (get_defining_axis_steps steps)),
      division_delta steps (divisions_of (get_defining_axis_steps steps)) d i
      = steps i :=
  sum_division_delta steps _ (divisions_of_pos _)
    (divisions_of_le _ (defining_le steps hrange)) i

/-! Bounds on the per-division defining-axis step counts. -/

lemma defining_attained {n : Nat} (steps : Fin n → Int)
    (h0 : get_defining_axis_steps steps ≠ 0) :
    ∃ i, (steps i).natAbs = get_defining_axis_steps steps := by
  rcases (Finset.univ : Finset (Fin n)).eq_empty_or_nonempty with hemp | hne
  · exfalso
    apply h0
    unfold get_defining_axis_steps
    rw [hemp]
    rfl
  · obtain ⟨i, _, hi⟩ := Finset.exists_mem_eq_sup (Finset.univ : Finset (Fin n))
      hne fun i => (steps i).natAbs
    exact ⟨i, hi.symm⟩

lemma two_divisions_le {n : Nat} (steps : Fin n → Int)
    (hbig : MAX_STEPS_PER_SEGMENT < get_defining_axis_steps steps) :
    2 * divisions_of (get_defining_axis_steps steps)
      ≤ get_defining_axis_steps steps := by
  rw [MAX_STEPS_PER_SEGMENT_eq] at hbig
  unfold divisions_of
  rw [MAX_STEPS_PER_SEGMENT_eq]
  omega

lemma division_steps_le {n : Nat} (steps : Fin n → Int)
    (hrange : ∀ i, (steps i).natAbs ≤ 2 ^ 31)
    (hbig : MAX_STEPS_PER_SEGMENT < get_defining_axis_steps steps) (d : Nat) :
    division_steps steps (divisions_of (get_defining_axis_steps steps)) d
      ≤ MAX_STEPS_PER_SEGMENT := by
  set S := get_defining_axis_steps steps with hS
  set D := divisions_of S with hD
  have hDpos : 0 < D := divisions_of_pos S
  have h2D : 2 * (D : Int) ≤ 2 ^ 32 := divisions_of_le S (defining_le steps hrange)
  simp only [division_steps, get_defining_axis_steps]
  apply Finset.sup_le
  intro i _
  have h1 := division_delta_natAbs_le steps D d i hDpos h2D
  have h2 : (steps i).natAbs / D ≤ S / D := by
    apply Nat.div_le_div_right
    rw [hS]
    simp only [get_defining_axis_steps]
    apply Finset.le_sup (Finset.mem_univ i)
  have h3 : S / D ≤ 32766 := by
    have : S / D < 32767 := by
      rw [Nat.div_lt_iff_lt_mul hDpos]
      rw [hD]
      unfold divisions_of
      rw [MAX_STEPS_PER_SEGMENT_eq]
      omega
    omega
  rw [MAX_STEPS_PER_SEGMENT_eq]
  omega

lemma division_steps_pos {n : Nat} (steps : Fin n → Int)
    (hrange : ∀ i, (steps i).natAbs ≤ 2 ^ 31)
    (hbig : MAX_STEPS_PER_SEGMENT < get_defining_axis_steps steps) (d : Nat) :
    1 ≤ division_steps steps (divisions_of (get_defining_axis_steps steps)) d := by
  set S := get_defining_axis_steps steps with hS
  set D := divisions_of S with hD
  have hDpos : 0 < D := divisions_of_pos S
  have h2D : 2 * (D : Int) ≤ 2 ^ 32 := divisions_of_le S (defining_le steps hrange)
  obtain ⟨i0, hi0⟩ := defining_attained steps
    (by rw [MAX_STEPS_PER_SEGMENT_eq] at hbig; omega)
  have hbig0 : 2 * D ≤ (steps i0).natAbs := by
    rw [hi0]
    exact two_divisions_le steps hbig
  have h1 := division_delta_one_le steps D d i0 hDpos h2D hbig0
  have h2 : (division_delta steps D d i0).natAbs ≤ division_steps steps D d := by
    simp only [division_steps, get_defining_axis_steps]
    apply Finset.le_sup (Finset.mem_univ i0)
  omega

/-- Claim C6 theorem: every argument `beagleg_enqueue` passes to the
Segment Synthesizer as `defining_axis_steps` is strictly positive and at
most `MAX_STEPS_PER_SEGMENT`.  On the single-segment path the argument is
the movement's own defining-axis step count; on the splitting path it is
`division_steps` of each division `d < divisions`. -/
theorem synthesizer_precondition {n : Nat} (steps : Fin n → Int)
    (hrange : ∀ i, (steps i).natAbs ≤ 2 ^ 31)
    (hnz : get_defining_axis_steps steps ≠ 0) :
    (get_defining_axis_steps steps ≤ MAX_STEPS_PER_SEGMENT →
      1 ≤ get_defining_axis_steps steps
        ∧ get_defining_axis_steps steps ≤ MAX_STEPS_PER_SEGMENT) ∧
    (MAX_STEPS_PER_SEGMENT < get_defining_axis_steps steps →
      ∀ d, d < divisions_of (get_defining_axis_steps steps) →
        1 ≤ division_steps steps (divisions_of (get_defining_axis_steps steps)) d
        ∧ division_steps steps (divisions_of (get_defining_axis_steps steps)) d
            ≤ MAX_STEPS_PER_SEGMENT) := by
  constructor
  · intro hle
    exact ⟨Nat.one_le_iff_ne_zero.mpr hnz, hle⟩
  · intro hbig d _
    exact ⟨division_steps_pos steps hrange hbig d,
      division_steps_le steps hrange hbig d⟩

/-- Claim C9 theorem: `beagleg_enqueue` fails (returns nonzero, namely 1)
exactly when every axis's step count is zero; on failure the message is
written to the error sink and no segment is enqueued; otherwise it
returns 0 and writes nothing. -/
theorem zero_length_rejection {n : Nat} (sqrtK : K → K) (tf : K) (dcs : Nat)
    (uninit_series uninit_hires : Int) (aux_junk : Nat)
    (param : MotorMovement n K) (res : EnqueueResult n)
    (hres : res = beagleg_enqueue sqrtK tf dcs uninit_series uninit_hires
      aux_junk param) :
    (res.ret ≠ 0 ↔ ∀ i, param.steps i = 0) ∧
    ((∀ i, param.steps i = 0) →
      res.ret = 1 ∧ res.segments = []
        ∧ res.err_output = ["zero steps. Ignoring command.\n"]) ∧
    ((¬ ∀ i, param.steps i = 0) → res.ret = 0 ∧ res.err_output = []) := by
  have hzero : get_defining_axis_steps param.steps = 0 ↔ ∀ i, param.steps i = 0 := by
    unfold get_defining_axis_steps
    rw [show (0 : Nat) = ⊥ from rfl, Finset.sup_eq_bot_iff]
    constructor
    · intro h i
      exact Int.natAbs_eq_zero.mp (h i (Finset.mem_univ i))
    · intro h i _
      exact Int.natAbs_eq_zero.mpr (h i)
  subst hres
  unfold beagleg_enqueue
  by_cases h0 : get_defining_axis_steps param.steps = 0
  · rw [if_pos h0]
    refine ⟨?_, ?_, ?_⟩
    · simpa using hzero.mp h0
    · intro _; exact ⟨rfl, rfl, rfl⟩
    · intro hc; exact absurd (hzero.mp h0) hc
  · rw [if_neg h0]
    have hns : ¬ ∀ i, param.steps i = 0 := fun hc => h0 (hzero.mpr hc)
    by_cases hb : MAX_STEPS_PER_SEGMENT < get_defining_axis_steps param.steps
    · rw [if_pos hb]
      exact ⟨by simpa using hns, fun hc => absurd hc hns, fun _ => ⟨rfl, rfl⟩⟩
    · rw [if_neg hb]
      exact ⟨by simpa using hns, fun hc => absurd hc hns, fun _ => ⟨rfl, rfl⟩⟩

/-! Branch-independent projections of the synthesized segment. -/

lemma internal_direction_bits {n : Nat} (sqrtK : K → K) (tf : K) (dcs : Nat)
    (uninit_series uninit_hires : Int) (param : MotorMovement n K)
    (das : Nat) (i : Fin n) :
    (beagleg_enqueue_internal sqrtK tf dcs uninit_series uninit_hires
      param das).direction_bits i = decide (param.steps i < 0) := by
  dsimp only [beagleg_enqueue_internal]
  split
  · rfl
  split
  · rfl
  · rfl

lemma internal_fractions {n : Nat} (sqrtK : K → K) (tf : K) (dcs : Nat)
    (uninit_series uninit_hires : Int) (param : MotorMovement n K)
    (das : Nat) (i : Fin n) :
    (beagleg_enqueue_internal sqrtK tf dcs uninit_series uninit_hires
      param das).fractions i
      = (param.steps i).natAbs * (0xFFFFFFFF / LOOPS_PER_STEP) / das % 2 ^ 32 := by
  dsimp only [beagleg_enqueue_internal]
  split
  · rfl
  split
  · rfl
  · rfl

lemma internal_aux {n : Nat} (sqrtK : K → K) (tf : K) (dcs : Nat)
    (uninit_series uninit_hires : Int) (param : MotorMovement n K) (das : Nat) :
    (beagleg_enqueue_internal sqrtK tf dcs uninit_series uninit_hires
      param das).aux = param.aux_bits := by
  dsimp only [beagleg_enqueue_internal]
  split
  · rfl
  split
  · rfl
  · rfl

lemma internal_state {n : Nat} (sqrtK : K → K) (tf : K) (dcs : Nat)
    (uninit_series uninit_hires : Int) (param : MotorMovement n K) (das : Nat) :
    (beagleg_enqueue_internal sqrtK tf dcs uninit_series uninit_hires
      param das).state = SegmentState.FILLED := by
  dsimp only [beagleg_enqueue_internal]
  split
  · rfl
  split
  · rfl
  · rfl

/-- Claim C5 theorem: every synthesized segment is marked filled, and
exactly one of the three phase loop counts is non-zero, namely
`LOOPS_PER_STEP * defining_axis_steps` for the chosen phase, the other
two being zeroed. -/
theorem phase_exclusivity {n : Nat} (sqrtK : K → K) (tf : K) (dcs : Nat)
    (uninit_series uninit_hires : Int) (param : MotorMovement n K) (das : Nat)
    (seg : MotionSegment n)
    (hseg : seg = beagleg_enqueue_internal sqrtK tf dcs uninit_series
      uninit_hires param das)
    (hdas : 0 < das) :
    seg.state = SegmentState.FILLED ∧
    LOOPS_PER_STEP * das ≠ 0 ∧
    ((seg.loops_travel = LOOPS_PER_STEP * das
        ∧ seg.loops_accel = 0 ∧ seg.loops_decel = 0) ∨
     (seg.loops_accel = LOOPS_PER_STEP * das
        ∧ seg.loops_travel = 0 ∧ seg.loops_decel = 0) ∨
     (seg.loops_decel = LOOPS_PER_STEP * das
        ∧ seg.loops_travel = 0 ∧ seg.loops_accel = 0)) := by
  subst hseg
  refine ⟨internal_state sqrtK tf dcs uninit_series uninit_hires param das,
    by rw [LOOPS_PER_STEP_eq]; omega, ?_⟩
  dsimp only [beagleg_enqueue_internal]
  split
  · exact Or.inl ⟨rfl, rfl, rfl⟩
  split
  · exact Or.inr (Or.inl ⟨rfl, rfl, rfl⟩)
  · exact Or.inr (Or.inr ⟨rfl, rfl, rfl⟩)

/-- Claim C7 theorem: for a travel request the segment's loop count and
delay are as specified, the clipped speed never exceeds the 1 MHz
hardware ceiling fixed at initialization, and a request faster than the
ceiling gets exactly the ceiling-speed delay, so the delay never implies
a step frequency above the ceiling's. -/
theorem travel_speed_clipping {n : Nat} (sqrtK : K → K) (tf : K) (dcs : Nat)
    (uninit_series uninit_hires : Int) (param : MotorMovement n K) (das : Nat)
    (seg : MotionSegment n)
    (hseg : seg = beagleg_enqueue_internal sqrtK tf dcs uninit_series
      uninit_hires param das)
    (hv : param.v0 = param.v1) :
    seg.loops_travel = LOOPS_PER_STEP * das ∧
    seg.loops_accel = 0 ∧ seg.loops_decel = 0 ∧
    seg.travel_delay_cycles
      = round (tf / ((LOOPS_PER_STEP : K) * clip_hardware_frequency_limit param.v0)) ∧
    clip_hardware_frequency_limit param.v0 ≤ hardware_frequency_limit K ∧
    (hardware_frequency_limit K < param.v0 →
      seg.travel_delay_cycles
        = round (tf / ((LOOPS_PER_STEP : K) * hardware_frequency_limit K))) := by
  subst hseg
  have hclip : clip_hardware_frequency_limit param.v0 ≤ hardware_frequency_limit K := by
    unfold clip_hardware_frequency_limit
    split
    · linarith [show param.v0 < hardware_frequency_limit K by assumption]
    · exact le_refl _
  have hceil : hardware_frequency_limit K < param.v0 →
      clip_hardware_frequency_limit param.v0 = hardware_frequency_limit K := by
    intro hlt
    unfold clip_hardware_frequency_limit
    rw [if_neg (by linarith)]
  dsimp only [beagleg_enqueue_internal]
  rw [if_pos hv]
  exact ⟨rfl, rfl, rfl, rfl, hclip, fun hlt => by rw [hceil hlt]⟩

/-- Claim C3 counterexample: at the one-axis request `steps = [1]` with
`defining_axis_steps = 1` the code produces the fraction
`0xFFFFFFFF / LOOPS_PER_STEP = 2147483647`, which differs from the
claimed `|steps| * (2^32 / LOOPS_PER_STEP) / defining = 2147483648`. -/
theorem fraction_scale_counterexample :
    (beagleg_enqueue_internal (fun _ : ℚ => 0) 0 0 0 0
        ⟨![1], 1, 1, 0⟩ 1).fractions 0 = 2147483647 ∧
    (2147483647 : Nat) ≠ ((1 : Int).natAbs * (2 ^ 32 / LOOPS_PER_STEP) / 1) := by
  constructor
  · rw [internal_fractions]
    decide
  · decide

/-- Claim C3 amended theorem: the synthesized fractions use the scale
`0xFFFFFFFF / LOOPS_PER_STEP` (that is `2^31 - 1`), not
`2^32 / LOOPS_PER_STEP`: for every axis whose step count does not exceed
the defining axis's, `fractions[i] = |steps[i]| * (0xFFFFFFFF /
LOOPS_PER_STEP) / defining_axis_steps`. -/
theorem fractions_formula {n : Nat} (sqrtK : K → K) (tf : K) (dcs : Nat)
    (uninit_series uninit_hires : Int) (param : MotorMovement n K)
    (das : Nat) (i : Fin n) (hdas : 0 < das)
    (hle : (param.steps i).natAbs ≤ das) :
    (beagleg_enqueue_internal sqrtK tf dcs uninit_series uninit_hires
      param das).fractions i
      = (param.steps i).natAbs * (0xFFFFFFFF / LOOPS_PER_STEP) / das := by
  rw [internal_fractions]
  apply Nat.mod_eq_of_lt
  calc (param.steps i).natAbs * (0xFFFFFFFF / LOOPS_PER_STEP) / das
      ≤ das * (0xFFFFFFFF / LOOPS_PER_STEP) / das :=
        Nat.div_le_div_right (Nat.mul_le_mul_right _ hle)
    _ = 0xFFFFFFFF / LOOPS_PER_STEP := Nat.mul_div_cancel_left _ hdas
    _ < 2 ^ 32 := by decide

/-- Claim C4 failing-input theorem: a movement that needs splitting
(`steps = [40000]`, two divisions) with `aux_bits = 5` produces segments
whose `aux` equals the uninitialized stack value of `output.aux_bits`
(here modelled as 0), not the request's `aux_bits`: the C code never
copies `aux_bits` into `output` in the splitting loop. -/
theorem aux_bits_lost_on_split :
    ((beagleg_enqueue (fun _ : ℚ => 0) 0 0 0 0 0
        ⟨![40000], 1, 1, 5⟩).segments.map fun s => s.aux) = [0, 0] ∧
    (5 : Nat) ≠ 0 := by
  constructor
  · have hseg : (beagleg_enqueue (fun _ : ℚ => 0) 0 0 0 0 0
        ⟨![40000], 1, 1, 5⟩).segments
        = (List.range 2).map fun d =>
          beagleg_enqueue_internal (fun _ : ℚ => 0) 0 0 0 0
            (division_output (fun _ : ℚ => 0) 0 ⟨![40000], 1, 1, 5⟩ d)
            (division_steps (![(40000 : Int)]) 2 d) := by
      unfold beagleg_enqueue
      norm_num [show get_defining_axis_steps (![(40000 : Int)]) = 40000 by decide]
      rfl
    rw [hseg, show List.range 2 = [0, 1] from rfl]
    simp only [List.map_cons, List.map_nil, internal_aux]
    rfl
  · decide

/-- Claim C8 counterexample: for the request `steps = [40000, -1]`
(split into two divisions), division 1 moves axis 1 by zero steps, so
its direction bit 1 is clear even though `steps[1] < 0`: the split-path
direction bits reflect the division's own delta, not the original sign. -/
theorem direction_bit_counterexample :
    ((![ (40000 : Int), -1 ]) 1 < 0) ∧
    division_delta (![40000, -1])
      (divisions_of (get_defining_axis_steps (![(40000 : Int), -1]))) 1 1 = 0 ∧
    ((beagleg_enqueue (fun _ : ℚ => 0) 0 0 0 0 0
        ⟨![40000, -1], 1, 1, 0⟩).segments.map fun s => s.direction_bits 1)
      = [true, false] := by
  refine ⟨by decide, by decide, ?_⟩
  have hseg : (beagleg_enqueue (fun _ : ℚ => 0) 0 0 0 0 0
      ⟨![40000, -1], 1, 1, 0⟩).segments
      = (List.range 2).map fun d =>
        beagleg_enqueue_internal (fun _ : ℚ => 0) 0 0 0 0
          (division_output (fun _ : ℚ => 0) 0 ⟨![40000, -1], 1, 1, 0⟩ d)
          (division_steps (![(40000 : Int), -1]) 2 d) := by
    unfold beagleg_enqueue
    norm_num [show get_defining_axis_steps (![(40000 : Int), -1]) = 40000 by decide]
    rfl
  rw [hseg, show List.range 2 = [0, 1] from rfl]
  simp only [List.map_cons, List.map_nil, internal_direction_bits]
  decide

/-- Claim C8 amended theorem: direction bit `i` of every emitted segment
is set iff that segment's own movement of axis `i` is negative.  On the
single-segment path this coincides with `steps[i] < 0`; on the splitting
path each division's deltas never flip sign relative to the request (a
non-negative axis yields non-negative deltas, a negative axis
non-positive deltas), but an axis whose delta in some division is zero
has its bit clear there even when `steps[i] < 0`. -/
theorem direction_bits_amended {n : Nat} (sqrtK : K → K) (tf : K) (dcs : Nat)
    (uninit_series uninit_hires : Int) (aux_junk : Nat)
    (param : MotorMovement n K) (das d : Nat)
    (hrange : ∀ i, (param.steps i).natAbs ≤ 2 ^ 31) :
    (∀ i, (beagleg_enqueue_internal sqrtK tf dcs uninit_series uninit_hires
        param das).direction_bits i = decide (param.steps i < 0)) ∧
    (∀ i, 0 ≤ param.steps i →
      0 ≤ division_delta param.steps
        (divisions_of (get_defining_axis_steps param.steps)) d i) ∧
    (∀ i, param.steps i < 0 →
      division_delta param.steps
        (divisions_of (get_defining_axis_steps param.steps)) d i ≤ 0) ∧
    (∀ i, (beagleg_enqueue_internal sqrtK tf dcs uninit_series uninit_hires
        (division_output sqrtK aux_junk param d)
        (division_steps param.steps
          (divisions_of (get_defining_axis_steps param.steps)) d)).direction_bits i
      = decide (division_delta param.steps
          (divisions_of (get_defining_axis_steps param.steps)) d i < 0)) := by
  have hD := divisions_of_pos (get_defining_axis_steps param.steps)
  have h2D := divisions_of_le (get_defining_axis_steps param.steps)
    (defining_le param.steps hrange)
  refine ⟨fun i => internal_direction_bits sqrtK tf dcs uninit_series
      uninit_hires param das i, ?_, ?_, ?_⟩
  · intro i hs
    exact division_delta_nonneg param.steps _ d i hD hs
  · intro i hs
    exact division_delta_nonpos param.steps _ d i hD (by linarith) hs
  · intro i
    exact internal_direction_bits sqrtK tf dcs uninit_series uninit_hires
      (division_output sqrtK aux_junk param d) _ i

/-- Claim C10 counterexample: the zero-speed travel request
`steps = [1000]`, `v0 = v1 = 0` passes the zero-length check (and is
accepted, returning 0), yet the travel-delay divisor
`LOOPS_PER_STEP * clip(v0)` is exactly zero: the C code divides by zero
here. -/
theorem travel_divisor_counterexample :
    get_defining_axis_steps (![(1000 : Int)]) ≠ 0 ∧
    (LOOPS_PER_STEP : ℚ) * clip_hardware_frequency_limit (0 : ℚ) = 0 ∧
    (beagleg_enqueue (fun _ : ℚ => 0) 0 0 0 0 0 ⟨![1000], 0, 0, 0⟩).ret = 0 := by
  refine ⟨by decide, ?_, by decide⟩
  unfold clip_hardware_frequency_limit hardware_frequency_limit
  norm_num

/-- Claim C10 amended theorem: a zero-speed travel request with a
non-zero step vector passes the zero-length check (the call returns 0),
but the travel-delay divisor `LOOPS_PER_STEP * clip(v0)` is then zero;
in general, for non-negative speeds the divisor is non-zero if and only
if `v0` is non-zero. -/
theorem travel_divisor_zero {n : Nat} (sqrtK : K → K) (tf : K) (dcs : Nat)
    (uninit_series uninit_hires : Int) (aux_junk : Nat)
    (param : MotorMovement n K) (hv0 : param.v0 = 0)
    (hnz : get_defining_axis_steps param.steps ≠ 0) :
    (beagleg_enqueue sqrtK tf dcs uninit_series uninit_hires aux_junk
      param).ret = 0 ∧
    (LOOPS_PER_STEP : K) * clip_hardware_frequency_limit param.v0 = 0 ∧
    (∀ v : K, 0 ≤ v →
      ((LOOPS_PER_STEP : K) * clip_hardware_frequency_limit v = 0 ↔ v = 0)) := by
  have hlim : (0 : K) < hardware_frequency_limit K := by
    unfold hardware_frequency_limit; norm_num
  have hL : (LOOPS_PER_STEP : K) = 2 := by rw [LOOPS_PER_STEP_eq]; norm_num
  refine ⟨?_, ?_, ?_⟩
  · unfold beagleg_enqueue
    rw [if_neg hnz]
    split
    · rfl
    · rfl
  · rw [hv0]
    unfold clip_hardware_frequency_limit
    rw [if_pos hlim]
    ring
  · intro v hv
    unfold clip_hardware_frequency_limit
    rw [hL]
    constructor
    · intro h
      split at h
      · rcases mul_eq_zero.mp h with h2 | h2
        · exact absurd h2 two_ne_zero
        · exact h2
      · exfalso
        rcases mul_eq_zero.mp h with h2 | h2
        · exact absurd h2 two_ne_zero
        · linarith
    · intro h
      rw [h, if_pos hlim, mul_zero]


/-! Velocity chain of the splitting path, over `ℝ` with `Real.sqrt`. -/

lemma sum_division_steps_ge {n : Nat} (steps : Fin n → Int)
    (hrange : ∀ i, (steps i).natAbs ≤ 2 ^ 31)
    (hbig : MAX_STEPS_PER_SEGMENT < get_defining_axis_steps steps) :
    get_defining_axis_steps steps
      ≤ ∑ d ∈ Finset.range (divisions_of (get_defining_axis_steps steps)),
          division_steps steps (divisions_of (get_defining_axis_steps steps)) d := by
  set S := get_defining_axis_steps steps with hS
  set D := divisions_of S with hD
  have hDpos : 0 < D := divisions_of_pos S
  have h2D : 2 * (D : Int) ≤ 2 ^ 32 := divisions_of_le S (defining_le steps hrange)
  obtain ⟨i0, hi0⟩ := defining_attained steps
    (by rw [MAX_STEPS_PER_SEGMENT_eq] at hbig; omega)
  have hcons : ∑ d ∈ Finset.range D, division_delta steps D d i0 = steps i0 :=
    sum_division_delta steps D hDpos h2D i0
  have habs : ((S : Int)) = |steps i0| := by
    rw [hS, ← hi0]
    exact (Int.abs_eq_natAbs _).symm
  have hle : ((S : Int))
      ≤ ∑ d ∈ Finset.range D, ((division_steps steps D d : Nat) : Int) := by
    rw [habs, ← hcons]
    calc |∑ d ∈ Finset.range D, division_delta steps D d i0|
        ≤ ∑ d ∈ Finset.range D, |division_delta steps D d i0| :=
          Finset.abs_sum_le_sum_abs _ _
      _ ≤ ∑ d ∈ Finset.range D, ((division_steps steps D d : Nat) : Int) := by
          apply Finset.sum_le_sum
          intro d _
          rw [Int.abs_eq_natAbs]
          have : (division_delta steps D d i0).natAbs ≤ division_steps steps D d := by
            simp only [division_steps, get_defining_axis_steps]
            apply Finset.le_sup (Finset.mem_univ i0)
          exact_mod_cast this
  have : ((S : Int)) ≤ ((∑ d ∈ Finset.range D, division_steps steps D d : Nat) : Int) := by
    rw [Nat.cast_sum]
    exact hle
  exact_mod_cast this

lemma next_division_speed_nonneg (a prev : ℝ) (dsteps : Nat) :
    0 ≤ next_division_speed Real.sqrt a prev dsteps := by
  unfold next_division_speed
  dsimp only
  split
  · exact Real.sqrt_nonneg _
  · exact le_refl 0

lemma division_entry_speed_bound (a : ℝ) (ds : Nat → Nat) (v0 : ℝ)
    (ha : a ≤ 0) (hv0 : 0 ≤ v0) (d : Nat) :
    0 ≤ division_entry_speed Real.sqrt a ds v0 d ∧
    sqd (division_entry_speed Real.sqrt a ds v0 d)
      ≤ max 0 (sqd v0 + 2 * a * ∑ k ∈ Finset.range d, (ds k : ℝ)) := by
  induction d with
  | zero =>
      refine ⟨hv0, ?_⟩
      rw [Finset.range_zero, Finset.sum_empty, mul_zero, add_zero]
      exact le_max_of_le_right (le_refl _)
  | succ d ih =>
      obtain ⟨hp, hsq⟩ := ih
      refine ⟨next_division_speed_nonneg a _ (ds d), ?_⟩
      have hstep : 2 * a * (ds d : ℝ) ≤ 0 :=
        mul_nonpos_of_nonpos_of_nonneg (by linarith) (Nat.cast_nonneg _)
      have hsumsucc : ∑ k ∈ Finset.range (d + 1), (ds k : ℝ)
          = (∑ k ∈ Finset.range d, (ds k : ℝ)) + (ds d : ℝ) :=
        Finset.sum_range_succ _ _
      rw [show division_entry_speed Real.sqrt a ds v0 (d + 1)
          = next_division_speed Real.sqrt a
              (division_entry_speed Real.sqrt a ds v0 d) (ds d) from rfl]
      unfold next_division_speed
      dsimp only
      split
      · rename_i hr
        rw [show sqd (Real.sqrt (sqd (division_entry_speed Real.sqrt a ds v0 d)
              + 2 * a * (ds d : ℝ)))
            = sqd (division_entry_speed Real.sqrt a ds v0 d)
              + 2 * a * (ds d : ℝ) from Real.mul_self_sqrt hr.le]
        rcases le_or_lt (sqd v0 + 2 * a * ∑ k ∈ Finset.range d, (ds k : ℝ)) 0
          with hB | hB
        · exfalso
          rw [max_eq_left hB] at hsq
          linarith
        · rw [max_eq_right hB.le] at hsq
          rw [hsumsucc]
          have hB1 : sqd (division_entry_speed Real.sqrt a ds v0 d)
              + 2 * a * (ds d : ℝ)
              ≤ sqd v0 + 2 * a * ((∑ k ∈ Finset.range d, (ds k : ℝ)) + (ds d : ℝ)) := by
            have : 2 * a * ((∑ k ∈ Finset.range d, (ds k : ℝ)) + (ds d : ℝ))
                = 2 * a * (∑ k ∈ Finset.range d, (ds k : ℝ)) + 2 * a * (ds d : ℝ) := by
              ring
            rw [this]
            linarith
          exact le_max_of_le_right hB1
      · rw [show sqd (0 : ℝ) = 0 from by rw [sqd]; ring]
        exact le_max_of_le_left (le_refl _)

/-- Claim C2 theorem: along the splitting path, division `d+1`'s entry
speed is exactly division `d`'s exit speed; every exit speed is
non-negative (the non-positive-radicand clamp); and when the movement
decelerates to a stop (`v1 = 0`) the final division's exit speed is
exactly `0`.  The double-precision speed chain is modelled over `ℝ`. -/
theorem velocity_continuity_and_stop {n : Nat} (aux_junk : Nat)
    (param : MotorMovement n ℝ)
    (hrange : ∀ i, (param.steps i).natAbs ≤ 2 ^ 31)
    (hbig : MAX_STEPS_PER_SEGMENT < get_defining_axis_steps param.steps)
    (hv0 : 0 ≤ param.v0) :
    (∀ d, (division_output Real.sqrt aux_junk param (d + 1)).v0
        = (division_output Real.sqrt aux_junk param d).v1) ∧
    (∀ d, 0 ≤ (division_output Real.sqrt aux_junk param d).v1) ∧
    (param.v1 = 0 →
      (division_output Real.sqrt aux_junk param
        (divisions_of (get_defining_axis_steps param.steps) - 1)).v1 = 0) := by
  set S := get_defining_axis_steps param.steps with hS
  set D := divisions_of S with hD
  set a := split_acceleration param with haDef
  set ds : Nat → Nat := fun k => division_steps param.steps D k with hdsDef
  refine ⟨fun d => rfl, fun d => next_division_speed_nonneg a _ (ds d), ?_⟩
  intro hv1
  have hSpos : 0 < S := by rw [MAX_STEPS_PER_SEGMENT_eq] at hbig; omega
  have hSR : (0 : ℝ) < (S : ℝ) := by exact_mod_cast hSpos
  have hDpos : 0 < D := divisions_of_pos S
  have ha : a ≤ 0 := by
    rw [haDef]
    unfold split_acceleration
    rw [hv1]
    rw [← hS]
    apply div_nonpos_of_nonpos_of_nonneg
    · have : (0 : ℝ) ≤ sqd param.v0 := mul_self_nonneg param.v0
      have h0 : sqd (0 : ℝ) = 0 := by rw [sqd]; ring
      linarith [h0]
    · linarith
  have hsum : (S : ℝ) ≤ ∑ k ∈ Finset.range D, (ds k : ℝ) := by
    have hn := sum_division_steps_ge param.steps hrange hbig
    rw [← hS, ← hD] at hn
    have : ((S : Nat) : ℝ) ≤ ((∑ d ∈ Finset.range D, ds d : Nat) : ℝ) := by
      exact_mod_cast hn
    rw [Nat.cast_sum] at this
    exact this
  have hfinal : (division_output Real.sqrt aux_junk param (D - 1)).v1
      = division_entry_speed Real.sqrt a ds param.v0 D := by
    have : D - 1 + 1 = D := by omega
    show division_exit_speed Real.sqrt a ds param.v0 (D - 1)
      = division_entry_speed Real.sqrt a ds param.v0 D
    rw [← this]
    rfl
  rw [hfinal]
  obtain ⟨hpos, hbound⟩ := division_entry_speed_bound a ds param.v0 ha hv0 D
  have h2aS : 2 * a * (S : ℝ) = -(sqd param.v0) := by
    rw [haDef]
    unfold split_acceleration
    rw [hv1, ← hS]
    rw [show sqd (0 : ℝ) = 0 from by rw [sqd]; ring]
    field_simp [hSR.ne']
    ring
  have hBneg : sqd param.v0 + 2 * a * ∑ k ∈ Finset.range D, (ds k : ℝ) ≤ 0 := by
    have h1 : 2 * a * ∑ k ∈ Finset.range D, (ds k : ℝ) ≤ 2 * a * (S : ℝ) :=
      mul_le_mul_of_nonpos_left hsum (by linarith)
    rw [h2aS] at h1
    linarith
  rw [max_eq_left hBneg] at hbound
  have : division_entry_speed Real.sqrt a ds param.v0 D
      * division_entry_speed Real.sqrt a ds param.v0 D = 0 := by
    have hge : 0 ≤ sqd (division_entry_speed Real.sqrt a ds param.v0 D) :=
      mul_self_nonneg _
    have : sqd (division_entry_speed Real.sqrt a ds param.v0 D) = 0 := by
      linarith
    exact this
  exact mul_self_eq_zero.mp this

/-! Witnesses: each hypothesis-bearing claim theorem applied at a
concrete input. -/

/-- Witness for `step_conservation`: `steps = [100000, -33333]` splits
into 4 divisions whose axis-1 deltas sum to exactly `-33333`. -/
theorem step_conservation_witness :
    (∀ i, ((![(100000 : Int), -33333] : Fin 2 → Int) i).natAbs ≤ 2 ^ 31) ∧
    MAX_STEPS_PER_SEGMENT < get_defining_axis_steps (![(100000 : Int), -33333]) ∧
    ∑ d ∈ Finset.range
        (divisions_of (get_defining_axis_steps (![(100000 : Int), -33333]))),
      division_delta (![(100000 : Int), -33333])
        (divisions_of (get_defining_axis_steps (![(100000 : Int), -33333]))) d 1
      = -33333 :=
  ⟨by decide, by decide,
    step_conservation (![(100000 : Int), -33333]) (by decide) (by decide) 1⟩

/-- Witness for `fractions_formula` at `steps = [1, 2]`,
`defining_axis_steps = 2`. -/
theorem fractions_formula_witness :
    (0 : Nat) < 2 ∧
    (((![(1 : Int), 2]) : Fin 2 → Int) 0).natAbs ≤ 2 ∧
    (beagleg_enqueue_internal (fun _ : ℚ => 0) 0 0 0 0
        ⟨![1, 2], 1, 1, 0⟩ 2).fractions 0
      = ((![(1 : Int), 2]) 0).natAbs * (0xFFFFFFFF / LOOPS_PER_STEP) / 2 :=
  ⟨by decide, by decide,
    fractions_formula (fun _ : ℚ => 0) 0 0 0 0 ⟨![1, 2], 1, 1, 0⟩ 2 0
      (by decide) (by decide)⟩

/-- Witness for `phase_exclusivity` at an accelerating request. -/
theorem phase_exclusivity_witness :
    (beagleg_enqueue_internal (fun _ : ℚ => 0) 0 0 0 0
        ⟨![5], 1, 2, 0⟩ 5).state = SegmentState.FILLED ∧
    LOOPS_PER_STEP * 5 ≠ 0 ∧
    (((beagleg_enqueue_internal (fun _ : ℚ => 0) 0 0 0 0
          ⟨![5], 1, 2, 0⟩ 5).loops_travel = LOOPS_PER_STEP * 5
        ∧ (beagleg_enqueue_internal (fun _ : ℚ => 0) 0 0 0 0
          ⟨![5], 1, 2, 0⟩ 5).loops_accel = 0
        ∧ (beagleg_enqueue_internal (fun _ : ℚ => 0) 0 0 0 0
          ⟨![5], 1, 2, 0⟩ 5).loops_decel = 0) ∨
     ((beagleg_enqueue_internal (fun _ : ℚ => 0) 0 0 0 0
          ⟨![5], 1, 2, 0⟩ 5).loops_accel = LOOPS_PER_STEP * 5
        ∧ (beagleg_enqueue_internal (fun _ : ℚ => 0) 0 0 0 0
          ⟨![5], 1, 2, 0⟩ 5).loops_travel = 0
        ∧ (beagleg_enqueue_internal (fun _ : ℚ => 0) 0 0 0 0
          ⟨![5], 1, 2, 0⟩ 5).loops_decel = 0) ∨
     ((beagleg_enqueue_internal (fun _ : ℚ => 0) 0 0 0 0
          ⟨![5], 1, 2, 0⟩ 5).loops_decel = LOOPS_PER_STEP * 5
        ∧ (beagleg_enqueue_internal (fun _ : ℚ => 0) 0 0 0 0
          ⟨![5], 1, 2, 0⟩ 5).loops_travel = 0
        ∧ (beagleg_enqueue_internal (fun _ : ℚ => 0) 0 0 0 0
          ⟨![5], 1, 2, 0⟩ 5).loops_accel = 0)) :=
  phase_exclusivity (fun _ : ℚ => 0) 0 0 0 0 ⟨![5], 1, 2, 0⟩ 5 _ rfl
    (by decide)

/-- Witness for `synthesizer_precondition`: `steps = [100000]` splits
into divisions whose first division's defining axis lies in
`[1, MAX_STEPS_PER_SEGMENT]`. -/
theorem synthesizer_precondition_witness :
    (∀ i, ((![(100000 : Int)] : Fin 1 → Int) i).natAbs ≤ 2 ^ 31) ∧
    get_defining_axis_steps (![(100000 : Int)]) ≠ 0 ∧
    MAX_STEPS_PER_SEGMENT < get_defining_axis_steps (![(100000 : Int)]) ∧
    (1 ≤ division_steps (![(100000 : Int)])
        (divisions_of (get_defining_axis_steps (![(100000 : Int)]))) 0
      ∧ division_steps (![(100000 : Int)])
          (divisions_of (get_defining_axis_steps (![(100000 : Int)]))) 0
        ≤ MAX_STEPS_PER_SEGMENT) :=
  ⟨by decide, by decide, by decide,
    (synthesizer_precondition (![(100000 : Int)]) (by decide) (by decide)).2
      (by decide) 0 (by decide)⟩

/-- Witness for `travel_speed_clipping` at a travel request whose speed
exceeds the 1 MHz ceiling. -/
theorem travel_speed_clipping_witness :
    (beagleg_enqueue_internal (fun _ : ℚ => 0) 7 0 0 0
        ⟨![10], 2000000, 2000000, 0⟩ 10).loops_travel = LOOPS_PER_STEP * 10 ∧
    (beagleg_enqueue_internal (fun _ : ℚ => 0) 7 0 0 0
        ⟨![10], 2000000, 2000000, 0⟩ 10).loops_accel = 0 ∧
    (beagleg_enqueue_internal (fun _ : ℚ => 0) 7 0 0 0
        ⟨![10], 2000000, 2000000, 0⟩ 10).loops_decel = 0 ∧
    (beagleg_enqueue_internal (fun _ : ℚ => 0) 7 0 0 0
        ⟨![10], 2000000, 2000000, 0⟩ 10).travel_delay_cycles
      = round ((7 : ℚ) / ((LOOPS_PER_STEP : ℚ)
          * clip_hardware_frequency_limit (2000000 : ℚ))) ∧
    clip_hardware_frequency_limit (2000000 : ℚ) ≤ hardware_frequency_limit ℚ ∧
    (beagleg_enqueue_internal (fun _ : ℚ => 0) 7 0 0 0
        ⟨![10], 2000000, 2000000, 0⟩ 10).travel_delay_cycles
      = round ((7 : ℚ) / ((LOOPS_PER_STEP : ℚ) * hardware_frequency_limit ℚ)) := by
  have h := travel_speed_clipping (fun _ : ℚ => 0) 7 0 0 0
    ⟨![10], 2000000, 2000000, 0⟩ 10 _ rfl rfl
  have hlim : hardware_frequency_limit ℚ < (2000000 : ℚ) := by
    unfold hardware_frequency_limit
    norm_num
  exact ⟨h.1, h.2.1, h.2.2.1, h.2.2.2.1, h.2.2.2.2.1, h.2.2.2.2.2 hlim⟩

/-- Witness for `direction_bits_amended` at `steps = [40000, -1]`,
division 0. -/
theorem direction_bits_amended_witness :
    (beagleg_enqueue_internal (fun _ : ℚ => 0) 0 0 0 0
        ⟨![40000, -1], 1, 1, 0⟩ 40000).direction_bits 1
      = decide ((![(40000 : Int), -1]) 1 < 0) ∧
    0 ≤ division_delta (![(40000 : Int), -1])
        (divisions_of (get_defining_axis_steps (![(40000 : Int), -1]))) 0 0 ∧
    division_delta (![(40000 : Int), -1])
        (divisions_of (get_defining_axis_steps (![(40000 : Int), -1]))) 0 1 ≤ 0 ∧
    (beagleg_enqueue_internal (fun _ : ℚ => 0) 0 0 0 0
        (division_output (fun _ : ℚ => 0) 0 ⟨![40000, -1], 1, 1, 0⟩ 0)
        (division_steps (![(40000 : Int), -1])
          (divisions_of (get_defining_axis_steps (![(40000 : Int), -1]))) 0)).direction_bits 1
      = decide (division_delta (![(40000 : Int), -1])
          (divisions_of (get_defining_axis_steps (![(40000 : Int), -1]))) 0 1 < 0) := by
  have h := direction_bits_amended (fun _ : ℚ => 0) 0 0 0 0 0
    ⟨![40000, -1], 1, 1, 0⟩ 40000 0 (by decide)
  exact ⟨h.1 1, h.2.1 0 (by decide), h.2.2.1 1 (by decide), h.2.2.2 1⟩

/-- Witness for `zero_length_rejection`: the all-zero request is rejected
with return value 1, no segments, and the logged message. -/
theorem zero_length_rejection_witness :
    (beagleg_enqueue (fun _ : ℚ => 0) 0 0 0 0 0
        ⟨![0, 0], 1, 2, 3⟩).ret = 1 ∧
    (beagleg_enqueue (fun _ : ℚ => 0) 0 0 0 0 0
        ⟨![0, 0], 1, 2, 3⟩).segments = [] ∧
    (beagleg_enqueue (fun _ : ℚ => 0) 0 0 0 0 0
        ⟨![0, 0], 1, 2, 3⟩).err_output = ["zero steps. Ignoring command.\n"] :=
  (zero_length_rejection (fun _ : ℚ => 0) 0 0 0 0 0
    ⟨![0, 0], 1, 2, 3⟩ _ rfl).2.1 (by decide)

/-- Witness for `travel_divisor_zero` at `steps = [1000]`, `v0 = v1 = 0`. -/
theorem travel_divisor_zero_witness :
    (beagleg_enqueue (fun _ : ℚ => 0) 0 0 0 0 0
        ⟨![1000], 0, 0, 0⟩).ret = 0 ∧
    (LOOPS_PER_STEP : ℚ) * clip_hardware_frequency_limit (0 : ℚ) = 0 ∧
    ((LOOPS_PER_STEP : ℚ) * clip_hardware_frequency_limit (0 : ℚ) = 0
      ↔ (0 : ℚ) = 0) := by
  have h := travel_divisor_zero (fun _ : ℚ => 0) 0 0 0 0 0
    ⟨![1000], 0, 0, 0⟩ rfl (by decide)
  exact ⟨h.1, h.2.1, h.2.2 0 (le_refl 0)⟩

/-- Witness for `velocity_continuity_and_stop`: decelerating
`steps = [40000]` from `v0 = 100` to a stop; the final division's exit
speed is exactly 0. -/
theorem velocity_continuity_and_stop_witness :
    (∀ i, ((![(40000 : Int)] : Fin 1 → Int) i).natAbs ≤ 2 ^ 31) ∧
    MAX_STEPS_PER_SEGMENT < get_defining_axis_steps (![(40000 : Int)]) ∧
    (0 : ℝ) ≤ 100 ∧
    (division_output Real.sqrt 3
        (⟨![40000], 100, 0, 7⟩ : MotorMovement 1 ℝ) 1).v0
      = (division_output Real.sqrt 3
        (⟨![40000], 100, 0, 7⟩ : MotorMovement 1 ℝ) 0).v1 ∧
    0 ≤ (division_output Real.sqrt 3
        (⟨![40000], 100, 0, 7⟩ : MotorMovement 1 ℝ) 0).v1 ∧
    (division_output Real.sqrt 3 (⟨![40000], 100, 0, 7⟩ : MotorMovement 1 ℝ)
        (divisions_of (get_defining_axis_steps (![(40000 : Int)])) - 1)).v1 = 0 := by
  have h := velocity_continuity_and_stop 3
    (⟨![40000], 100, 0, 7⟩ : MotorMovement 1 ℝ) (by decide) (by decide)
    (by norm_num)
  exact ⟨by decide, by decide, by norm_num, h.1 0, h.2.1 0, h.2.2 rfl⟩

end BeagleG
